import Mathlib

/-!
# go-utmost: a ticket machine bounding the number of simultaneous goroutines

Shallow embedding of `utmost.go`.

* `TicketsMachine` is the Go struct (the embedded `telemetry` struct is flattened, as Go
  promotes its fields); the buffered channel `dispenser` is a capacity and a FIFO buffer,
  the `sync.RWMutex` is the flag "write-locked", the `sync.WaitGroup` is its counter.
* `New` runs the constructor, fill loop included.  It has three outcomes: it returns a
  machine (`Outcome.ok`), it panics in `make(chan int, limit)` at line 43 because the
  capacity is out of range (`Outcome.panic`), or a send of the fill loop blocks on a full
  channel (`Outcome.blocked`).
* `TicketsMachine.Go` is concurrent code.  Every call of `Go` is a control thread `G` with
  a program counter `PC` over the statements of `Go` (lines 54-63) and of the goroutine it
  starts (lines 72-78), and its local variable `ticket`.  `TicketsMachine.Go` executes the
  one statement a thread is at, `exec` is one scheduler action (a new call of `Go`, or one
  statement of one thread), `run` a whole schedule.  A statement that cannot execute in
  the current state (receive on an empty channel, send on a full one, `Lock` of a locked
  mutex) gives `none`: the scheduler cannot pick that thread.  The submitted function is
  arbitrary code: it is entered (`PC.call`) and left (`PC.body`) at any time, or never
  left.
* The accessors take the read lock, so they return only in states where no writer holds
  the mutex: they are `Option`-valued, `none` meaning "the caller is still blocked".

Go's `int` is modelled by `Int`.  `inUse` and `maxInUse` are proved to stay within
`0 .. limit`, so they cannot overflow; `dispensed` is exact as long as fewer than `2^63`
tickets were dispensed.  `make(chan int, n)` performs the size check of the Go runtime
(`maxChanCap`); an allocation that passes this check is taken to succeed, the memory of
the host not being part of the model.
-/

namespace Utmost

/-- Go constant `DefaultUtmost` (line 10). -/
def DefaultUtmost : Int := 100

/-- Buffered channel `chan int`: capacity given to `make`, and the queued values. -/
structure Chan where
  cap : Nat
  buf : List Int
  deriving DecidableEq

/-- Largest capacity `make(chan int, n)` accepts.  The Go runtime (`makechan`, outside this
repository) panics with "makechan: size out of range" when `8 * n > maxAlloc - hchanSize`;
on linux/amd64 `maxAlloc = 2^48` and `hchanSize = 104` (Go 1.23 and later; `96` before,
which admits one capacity more).  So `make(chan int, 1 << 45)` panics. -/
def maxChanCap : Nat := 2 ^ 45 - 13

/-- Go `make(chan int, n)`: `none` when the runtime panics, the size being out of range. -/
def Chan.make (n : Nat) : Option Chan :=
  if n ≤ maxChanCap then some { cap := n, buf := [] } else none

/-- Channel send `c <- v`: `none` when the buffer is full (the sender blocks). -/
def Chan.send (c : Chan) (v : Int) : Option Chan :=
  if c.buf.length < c.cap then some { c with buf := c.buf ++ [v] } else none

/-- Channel receive `<-c`: `none` when the buffer is empty (the receiver blocks). -/
def Chan.recv (c : Chan) : Option (Int × Chan) :=
  match c.buf with
  | [] => none
  | v :: rest => some (v, { c with buf := rest })

/-- Go struct `TicketsMachine` (lines 16-29), with the embedded `telemetry` flattened. -/
structure TicketsMachine where
  dispensed : Int
  inUse : Int
  maxInUse : Int
  /-- The mutex `m`: true while a writer holds it. -/
  m : Bool
  dispenser : Chan
  limit : Int
  /-- The counter of the wait group `wg`. -/
  wg : Int
  deriving DecidableEq

/-- The loop `for i := 0; i < limit; i++ { t.dispenser <- i }` of `New` (lines 46-48),
entered with loop variable `i`.  The first argument bounds the number of iterations still
allowed; a blocked send, or a loop that would need more iterations, gives `none`. -/
def fill (limit : Int) : Nat → Int → Chan → Option Chan
  | 0, i, d => if i < limit then none else some d
  | n + 1, i, d =>
    if i < limit then
      match d.send i with
      | none => none
      | some d1 => fill limit n (i + 1) d1
    else some d

/-- What a call of a constructor comes to. -/
inductive Outcome (α : Type) where
  /-- The call returns a value. -/
  | ok (a : α)
  /-- The call panics. -/
  | panic
  /-- The call blocks for ever. -/
  | blocked
  deriving DecidableEq

/-- Go `New` (lines 37-50): `make` at line 43 may panic, the fill loop of lines 46-48 may
block. -/
def New (limit : Int) : Outcome TicketsMachine :=
  let limit := if limit < 1 then DefaultUtmost else limit
  match Chan.make limit.toNat with
  | none => .panic
  | some d0 =>
    match fill limit limit.toNat 0 d0 with
    | none => .blocked
    | some d =>
      .ok { dispensed := 0, inUse := 0, maxInUse := 0, m := false,
            dispenser := d, limit := limit, wg := 0 }

/-- Go `Limit` (lines 83-87): blocked while a writer holds the mutex. -/
def TicketsMachine.Limit (t : TicketsMachine) : Option Int :=
  if t.m then none else some t.limit

/-- Go `Dispensed` (lines 90-94). -/
def TicketsMachine.Dispensed (t : TicketsMachine) : Option Int :=
  if t.m then none else some t.dispensed

/-- Go `MaxInUse` (lines 97-101). -/
def TicketsMachine.MaxInUse (t : TicketsMachine) : Option Int :=
  if t.m then none else some t.maxInUse

/-- Go `InUse` (lines 104-108). -/
def TicketsMachine.InUse (t : TicketsMachine) : Option Int :=
  if t.m then none else some t.inUse

/-- Go `Wait` (lines 32-34): returns once the wait group counter is zero. -/
def TicketsMachine.Wait (t : TicketsMachine) : Option Unit :=
  if t.wg = 0 then some () else none

/-- Program counter of one call of `Go`, and of the goroutine that call starts: the
statement the thread executes next. -/
inductive PC where
  /-- Line 54, `ticket := <-t.dispenser`. -/
  | recv
  /-- Line 55, `t.m.Lock()`. -/
  | lock
  /-- Line 56, `t.inUse++`. -/
  | incInUse
  /-- Line 57, `t.dispensed++`. -/
  | incDispensed
  /-- Lines 58-60, `if t.maxInUse < t.inUse { t.maxInUse = t.inUse }`. -/
  | updMax
  /-- Line 61, `t.m.Unlock()`. -/
  | unlock
  /-- Line 62, `t.wg.Add(1)`. -/
  | wgAdd
  /-- Line 63, `go func() {...}()`: the goroutine is created and `Go` returns. -/
  | spawn
  /-- Line 78, the new goroutine is about to call `goroutine()`. -/
  | call
  /-- Inside the submitted function `goroutine()`. -/
  | body
  /-- Line 72, `t.m.Lock()` of the deferred function. -/
  | dLock
  /-- Line 73, `t.inUse--`. -/
  | dDec
  /-- Line 74, `t.m.Unlock()`. -/
  | dUnlock
  /-- Line 75, `t.dispenser <- ticket`. -/
  | dSend
  /-- Line 76, `t.wg.Done()`. -/
  | dDone
  /-- The goroutine has ended. -/
  | exited
  deriving DecidableEq

/-- One control thread: a call of `Go` together with the goroutine it starts. -/
structure G where
  pc : PC
  /-- The local variable `ticket` (meaningful after line 54). -/
  ticket : Int
  deriving DecidableEq

/-- Go `Go` (lines 53-80), one statement at a time: the statement of `Go` (lines 54-63)
or of the goroutine it starts (lines 72-78) that thread `g` is at, executed on machine
`t`.  `none`: the statement cannot execute now (the thread is blocked, has ended, or the
runtime aborts: `Unlock` of an unlocked mutex, negative wait group counter). -/
def TicketsMachine.Go (t : TicketsMachine) (g : G) : Option (TicketsMachine × G) :=
  match g.pc with
  | .recv =>
    match t.dispenser.recv with
    | none => none
    | some (v, d) => some ({ t with dispenser := d }, { pc := .lock, ticket := v })
  | .lock => if t.m then none else some ({ t with m := true }, { g with pc := .incInUse })
  | .incInUse => some ({ t with inUse := t.inUse + 1 }, { g with pc := .incDispensed })
  | .incDispensed => some ({ t with dispensed := t.dispensed + 1 }, { g with pc := .updMax })
  | .updMax =>
    some ({ t with maxInUse := if t.maxInUse < t.inUse then t.inUse else t.maxInUse },
          { g with pc := .unlock })
  | .unlock => if t.m then some ({ t with m := false }, { g with pc := .wgAdd }) else none
  | .wgAdd => some ({ t with wg := t.wg + 1 }, { g with pc := .spawn })
  | .spawn => some (t, { g with pc := .call })
  | .call => some (t, { g with pc := .body })
  | .body => some (t, { g with pc := .dLock })
  | .dLock => if t.m then none else some ({ t with m := true }, { g with pc := .dDec })
  | .dDec => some ({ t with inUse := t.inUse - 1 }, { g with pc := .dUnlock })
  | .dUnlock => if t.m then some ({ t with m := false }, { g with pc := .dSend }) else none
  | .dSend =>
    match t.dispenser.send g.ticket with
    | none => none
    | some d => some ({ t with dispenser := d }, { g with pc := .dDone })
  | .dDone => if t.wg - 1 < 0 then none else some ({ t with wg := t.wg - 1 }, { g with pc := .exited })
  | .exited => none

/-- The machine together with every call of `Go` made on it so far. -/
structure Sys where
  t : TicketsMachine
  gs : List G
  deriving DecidableEq

/-- One scheduler action. -/
inductive Action where
  /-- Somebody calls `t.Go(f)`: a new thread, at line 54. -/
  | go
  /-- Thread number `i` executes its next statement. -/
  | step (i : Nat)
  deriving DecidableEq

/-- One scheduler action on the system; `none` when the action is not possible. -/
def exec (s : Sys) : Action → Option Sys
  | .go => some { s with gs := s.gs ++ [{ pc := .recv, ticket := 0 }] }
  | .step i =>
    match s.gs[i]? with
    | none => none
    | some g =>
      match TicketsMachine.Go s.t g with
      | none => none
      | some (t1, g1) => some { t := t1, gs := s.gs.set i g1 }

/-- A schedule, executed from state `s`. -/
def run (s : Sys) : List Action → Option Sys
  | [] => some s
  | a :: as =>
    match exec s a with
    | none => none
    | some s1 => run s1 as

/-- Every state the system goes through along a schedule, the first one included (the
schedule is followed as far as it is executable). -/
def states (s : Sys) : List Action → List Sys
  | [] => [s]
  | a :: as =>
    match exec s a with
    | none => [s]
    | some s1 => s :: states s1 as

/-- The statements executed along a schedule, in order: thread number and the program
counter of the statement. -/
def events (s : Sys) : List Action → List (Nat × PC)
  | [] => []
  | a :: as =>
    match exec s a with
    | none => []
    | some s1 =>
      match a with
      | .go => events s1 as
      | .step i =>
        match s.gs[i]? with
        | none => events s1 as
        | some g => (i, g.pc) :: events s1 as

/-- State `s` is reached from `New(limit)` by some interleaving of calls of `Go` and of
statements of the threads. -/
def Reachable (limit : Int) (s : Sys) : Prop :=
  ∃ t acts, New limit = .ok t ∧ run { t := t, gs := [] } acts = some s

/-- The thread holds a ticket: it has received one (line 54) and not yet sent it back
(line 75). -/
def PC.holds : PC → Bool
  | .recv | .dDone | .exited => false
  | _ => true

/-- The thread is counted in `inUse`: it has executed line 56 and not yet line 73. -/
def PC.counted : PC → Bool
  | .incDispensed | .updMax | .unlock | .wgAdd | .spawn | .call | .body | .dLock | .dDec => true
  | _ => false

/-- The thread has executed `t.dispensed++` (line 57). -/
def PC.dispensedDone : PC → Bool
  | .recv | .lock | .incInUse | .incDispensed => false
  | _ => true

/-- The thread has completed the bookkeeping of its admission: it has left the critical
section of lines 55-61. -/
def PC.admitted : PC → Bool
  | .recv | .lock | .incInUse | .incDispensed | .updMax | .unlock => false
  | _ => true

/-- The thread is counted in the wait group: after line 62, before line 76 is executed. -/
def PC.registered : PC → Bool
  | .spawn | .call | .body | .dLock | .dDec | .dUnlock | .dSend | .dDone => true
  | _ => false

/-- The thread is inside a critical section: between `t.m.Lock()` and `t.m.Unlock()`. -/
def PC.inCS : PC → Bool
  | .incInUse | .incDispensed | .updMax | .unlock | .dDec | .dUnlock => true
  | _ => false

/-- The thread has incremented `inUse` and not yet executed lines 58-60. -/
def PC.maxPending : PC → Bool
  | .incDispensed | .updMax => true
  | _ => false

/-- The call of `Go` has returned to its caller (line 63 was executed). -/
def PC.returned : PC → Bool
  | .call | .body | .dLock | .dDec | .dUnlock | .dSend | .dDone | .exited => true
  | _ => false

/-- The thread has executed `t.inUse--` (line 73). -/
def PC.pastDec : PC → Bool
  | .dUnlock | .dSend | .dDone | .exited => true
  | _ => false

/-- The thread has sent its ticket back (line 75). -/
def PC.pastSend : PC → Bool
  | .dDone | .exited => true
  | _ => false

/-- The thread holds a ticket that `inUse` does not count, outside any critical section:
after line 54 and before line 55, or after line 74 and before line 75. -/
def PC.uncounted : PC → Bool
  | .lock | .dSend => true
  | _ => false

/-- Number of threads whose program counter satisfies `p`. -/
def cnt (p : PC → Bool) (gs : List G) : Nat := gs.countP (fun g => p g.pc)

/-- The tickets held by the threads. -/
def heldTickets (gs : List G) : List Int := (gs.filter (fun g => g.pc.holds)).map G.ticket

/-- The tickets `0 .. limit-1` put into the dispenser by `New`. -/
def tickets (limit : Int) : List Int := (List.range limit.toNat).map Int.ofNat

/-- Number of task bodies executing now. -/
def running (s : Sys) : Nat := cnt (fun pc => pc == .body) s.gs

/-- Number of statements the thread still has to execute before it ends. -/
def PC.togo : PC → Nat
  | .recv => 15 | .lock => 14 | .incInUse => 13 | .incDispensed => 12 | .updMax => 11
  | .unlock => 10 | .wgAdd => 9 | .spawn => 8 | .call => 7 | .body => 6 | .dLock => 5
  | .dDec => 4 | .dUnlock => 3 | .dSend => 2 | .dDone => 1 | .exited => 0

/-- Number of statements all threads together still have to execute. -/
def work (gs : List G) : Nat := (gs.map (fun g => g.pc.togo)).sum

/-- Thread `g` holds ticket `v`. -/
def holdsV (v : Int) (g : G) : Bool := g.pc.holds && decide (g.ticket = v)

/-- Inductive invariant of the ticket machine. -/
structure Inv (s : Sys) : Prop where
  limPos : 1 ≤ s.t.limit
  cap : (s.t.dispenser.cap : Int) = s.t.limit
  inUse : s.t.inUse = cnt PC.counted s.gs
  disp : s.t.dispensed = cnt PC.dispensedDone s.gs
  wg : s.t.wg = cnt PC.registered s.gs
  lock : cnt PC.inCS s.gs = if s.t.m then 1 else 0
  maxLo : s.t.inUse ≤ s.t.maxInUse + cnt PC.maxPending s.gs
  maxNonneg : 0 ≤ s.t.maxInUse
  maxHi : s.t.maxInUse ≤ s.t.limit
  len : (s.t.dispenser.buf.length : Int) + cnt PC.holds s.gs = s.t.limit
  tix : ∀ v : Int, s.t.dispenser.buf.count v + s.gs.countP (holdsV v)
      = if 0 ≤ v ∧ v < s.t.limit then 1 else 0

/-! ## Concrete executions used as examples -/

/-- Example: the machine `New(1)` returns, with the single ticket `0` in the dispenser. -/
def machine1 : TicketsMachine :=
  { dispensed := 0, inUse := 0, maxInUse := 0, m := false,
    dispenser := { cap := 1, buf := [0] }, limit := 1, wg := 0 }

/-- Example schedule: one call of `Go`, which receives its ticket (line 54) and stops
before `t.m.Lock()` (line 55). -/
def untilTicket : List Action := [.go, .step 0]

/-- Example: the state `untilTicket` leads to from `machine1`. -/
def ticketTaken : Sys :=
  { t := { dispensed := 0, inUse := 0, maxInUse := 0, m := false,
           dispenser := { cap := 1, buf := [] }, limit := 1, wg := 0 },
    gs := [{ pc := .lock, ticket := 0 }] }

/-- Example schedule: one call of `Go`, run until its goroutine is inside the task body. -/
def untilBody : List Action := .go :: List.replicate 9 (.step 0)

/-- Example: the state `untilBody` leads to from `machine1`. -/
def bodyRunning : Sys :=
  { t := { dispensed := 1, inUse := 1, maxInUse := 1, m := false,
           dispenser := { cap := 1, buf := [] }, limit := 1, wg := 1 },
    gs := [{ pc := .body, ticket := 0 }] }

/-- Example schedule: two calls of `Go`, one after the other, each run to the end of its
goroutine. -/
def twoTasks : List Action :=
  (.go :: List.replicate 15 (.step 0)) ++ (.go :: List.replicate 15 (.step 1))

/-- Example: the state `twoTasks` leads to from `machine1`. -/
def allDone : Sys :=
  { t := { dispensed := 2, inUse := 0, maxInUse := 1, m := false,
           dispenser := { cap := 1, buf := [0] }, limit := 1, wg := 0 },
    gs := [{ pc := .exited, ticket := 0 }, { pc := .exited, ticket := 0 }] }

/-! ## Counting lemmas -/

theorem countP_set_add (p : G → Bool) : ∀ (gs : List G) (i : Nat) (g g1 : G), gs[i]? = some g →
    (gs.set i g1).countP p + (if p g then 1 else 0) = gs.countP p + (if p g1 then 1 else 0)
  | [], i, g, g1, h => by simp at h
  | x :: xs, 0, g, g1, h => by
    simp at h
    subst h
    simp [List.countP_cons]
    omega
  | x :: xs, i + 1, g, g1, h => by
    simp at h
    have ih := countP_set_add p xs i g g1 h
    simp [List.countP_cons]
    omega

theorem cnt_set (p : PC → Bool) (gs : List G) (i : Nat) (g g1 : G) (h : gs[i]? = some g) :
    cnt p (gs.set i g1) + (if p g.pc then 1 else 0) = cnt p gs + (if p g1.pc then 1 else 0) :=
  countP_set_add (fun g => p g.pc) gs i g g1 h

theorem cnt_snoc (p : PC → Bool) (gs : List G) (g : G) :
    cnt p (gs ++ [g]) = cnt p gs + (if p g.pc then 1 else 0) := by
  simp [cnt, List.countP_append, List.countP_cons]

theorem cnt_mono (p q : PC → Bool) (h : ∀ pc, p pc = true → q pc = true) (gs : List G) :
    cnt p gs ≤ cnt q gs := by
  unfold cnt
  exact List.countP_mono_left (fun g _ hg => h g.pc hg)

/-! ## The invariant is inductive -/

theorem Go_inv (s : Sys) (i : Nat) (g g1 : G) (t1 : TicketsMachine)
    (hg : s.gs[i]? = some g) (hs : TicketsMachine.Go s.t g = some (t1, g1)) (hI : Inv s) :
    Inv ⟨t1, s.gs.set i g1⟩ := by
  have c1 := cnt_set PC.counted s.gs i g g1 hg
  have c2 := cnt_set PC.dispensedDone s.gs i g g1 hg
  have c3 := cnt_set PC.registered s.gs i g g1 hg
  have c4 := cnt_set PC.inCS s.gs i g g1 hg
  have c5 := cnt_set PC.maxPending s.gs i g g1 hg
  have c6 := cnt_set PC.holds s.gs i g g1 hg
  have c7 := fun v : Int => countP_set_add (holdsV v) s.gs i g g1 hg
  have m1 := cnt_mono PC.counted PC.holds (by intro pc; cases pc <;> simp [PC.counted, PC.holds]) s.gs
  obtain ⟨h1, h2, h3, h4, h5, h6, h7, h8, h9, h10, h11⟩ := hI
  obtain ⟨t, gs⟩ := s
  obtain ⟨dispensed, inUse, maxInUse, m, ⟨cap, buf⟩, limit, wg⟩ := t
  obtain ⟨pc, tk⟩ := g
  cases pc
  case recv =>
    cases buf with
    | nil => simp [TicketsMachine.Go, Chan.recv] at hs
    | cons v0 rest =>
      simp [TicketsMachine.Go, Chan.recv] at hs
      obtain ⟨rfl, rfl⟩ := hs
      simp [PC.counted, PC.holds, PC.dispensedDone, PC.registered, PC.inCS, PC.maxPending, holdsV] at *
      constructor <;> simp only [] <;> (try omega)
      intro v
      have a1 := h11 v
      have a2 := c7 v
      simp only [List.count_cons] at a1
      by_cases hv : v0 = v <;> simp [hv] at a1 a2 ⊢ <;> omega
  case dSend =>
    by_cases hlt : buf.length < cap
    case neg => simp [TicketsMachine.Go, Chan.send, hlt] at hs
    simp [TicketsMachine.Go, Chan.send, hlt] at hs
    obtain ⟨rfl, rfl⟩ := hs
    simp [PC.counted, PC.holds, PC.dispensedDone, PC.registered, PC.inCS, PC.maxPending, holdsV] at *
    constructor <;> simp only [] <;> (try omega)
    · simp
      omega
    · intro v
      have a1 := h11 v
      have a2 := c7 v
      by_cases hv : tk = v <;> simp [hv, List.count_append, List.count_cons] at a1 a2 ⊢ <;> omega
  case updMax =>
    simp [TicketsMachine.Go, Chan.send] at hs
    obtain ⟨rfl, rfl⟩ := hs
    simp [PC.counted, PC.holds, PC.dispensedDone, PC.registered, PC.inCS, PC.maxPending, holdsV] at *
    constructor <;> simp only [] <;> (try omega)
    intro v; have a1 := h11 v; have a2 := c7 v; omega
  case dDone =>
    by_cases hw : wg - 1 < 0
    case pos => simp [TicketsMachine.Go, hw] at hs
    simp [TicketsMachine.Go, hw] at hs
    obtain ⟨rfl, rfl⟩ := hs
    simp [PC.counted, PC.holds, PC.dispensedDone, PC.registered, PC.inCS, PC.maxPending, holdsV] at *
    constructor <;> simp only [] <;> (try omega)
    intro v; have a1 := h11 v; have a2 := c7 v; omega
  all_goals
    cases m <;> simp [TicketsMachine.Go] at hs <;> obtain ⟨rfl, rfl⟩ := hs <;>
    simp [PC.counted, PC.holds, PC.dispensedDone, PC.registered, PC.inCS, PC.maxPending, holdsV] at * <;>
    constructor <;> (try simp only [if_true, if_false, Bool.false_eq_true]) <;> (try omega) <;>
    (intro v; have a1 := h11 v; have a2 := c7 v; omega)

theorem call_inv (s : Sys) (hI : Inv s) :
    Inv { s with gs := s.gs ++ [{ pc := .recv, ticket := 0 }] } := by
  obtain ⟨h1, h2, h3, h4, h5, h6, h7, h8, h9, h10, h11⟩ := hI
  constructor <;> simp only [cnt_snoc, PC.counted, PC.holds, PC.dispensedDone, PC.registered,
    PC.inCS, PC.maxPending, Bool.false_eq_true, if_false, Nat.add_zero] <;> (try assumption)
  intro v
  have a1 := h11 v
  simpa [List.countP_append, List.countP_cons, holdsV, PC.holds] using a1

theorem exec_inv (s s1 : Sys) (a : Action) (h : exec s a = some s1) (hI : Inv s) : Inv s1 := by
  cases a with
  | go =>
    simp only [exec, Option.some.injEq] at h
    subst h
    exact call_inv s hI
  | step i =>
    simp only [exec] at h
    cases hg : s.gs[i]? with
    | none => simp [hg] at h
    | some g =>
      simp only [hg] at h
      cases hs : TicketsMachine.Go s.t g with
      | none => simp [hs] at h
      | some r =>
        obtain ⟨t1, g1⟩ := r
        simp only [hs, Option.some.injEq] at h
        subst h
        exact Go_inv s i g g1 t1 hg hs hI

theorem run_inv : ∀ (acts : List Action) (s s1 : Sys), run s acts = some s1 → Inv s → Inv s1
  | [], s, s1, h, hI => by
    simp only [run, Option.some.injEq] at h
    subst h
    exact hI
  | a :: as, s, s1, h, hI => by
    simp only [run] at h
    cases he : exec s a with
    | none => simp [he] at h
    | some s2 =>
      simp only [he] at h
      exact run_inv as s2 s1 h (exec_inv s s2 a he hI)

theorem count_snoc (l : List Int) (i v : Int) :
    (l ++ [i]).count v = l.count v + if i = v then 1 else 0 := by
  by_cases h : i = v
  · simp [List.count_append, h]
  · have h2 : ¬ (i == v) = true := by simpa using h
    simp [List.count_append, List.count_cons, h, h2]

theorem fill_spec (limit : Int) : ∀ (n : Nat) (i : Int) (d : Chan), 0 ≤ i → i ≤ limit →
    (limit - i).toNat ≤ n → (d.buf.length : Int) = i → (d.cap : Int) = limit →
    ∃ d1, fill limit n i d = some d1 ∧ d1.cap = d.cap ∧ (d1.buf.length : Int) = limit ∧
      ∀ v : Int, d1.buf.count v = d.buf.count v + if i ≤ v ∧ v < limit then 1 else 0
  | 0, i, d, h0, h1, h2, h3, h4 => by
    have hi : ¬ i < limit := by omega
    refine ⟨d, by simp [fill, hi], rfl, by omega, ?_⟩
    intro v
    have : ¬ (i ≤ v ∧ v < limit) := by omega
    simp [this]
  | n + 1, i, d, h0, h1, h2, h3, h4 => by
    by_cases hi : i < limit
    · have hlen : d.buf.length < d.cap := by omega
      obtain ⟨d1, e1, e2, e3, e4⟩ := fill_spec limit n (i + 1) { d with buf := d.buf ++ [i] }
        (by omega) (by omega) (by omega) (by simp; omega) h4
      refine ⟨d1, by simp [fill, hi, Chan.send, hlen, e1], e2, e3, ?_⟩
      intro v
      rw [e4 v]
      show List.count v (d.buf ++ [i]) + _ = _
      rw [count_snoc]
      split_ifs <;> omega
    · refine ⟨d, by simp [fill, hi], rfl, by omega, ?_⟩
      intro v
      have : ¬ (i ≤ v ∧ v < limit) := by omega
      simp [this]

/-- What `New c` comes to: a machine in its initial state when the capacity passes the
size check of `make`, a panic otherwise; never a blocked fill loop. -/
theorem New_cases (c : Int) :
    ((if c < 1 then DefaultUtmost else c).toNat ≤ maxChanCap →
      ∃ t, New c = .ok t ∧ t.limit = (if c < 1 then DefaultUtmost else c) ∧
        1 ≤ t.limit ∧ t.dispensed = 0 ∧ t.inUse = 0 ∧ t.maxInUse = 0 ∧ t.m = false ∧ t.wg = 0 ∧
        (t.dispenser.cap : Int) = t.limit ∧ (t.dispenser.buf.length : Int) = t.limit ∧
        ∀ v : Int, t.dispenser.buf.count v = if 0 ≤ v ∧ v < t.limit then 1 else 0) ∧
    (maxChanCap < (if c < 1 then DefaultUtmost else c).toNat → New c = .panic) := by
  have hpos : 1 ≤ (if c < 1 then DefaultUtmost else c) := by
    unfold DefaultUtmost
    split_ifs <;> omega
  unfold New
  generalize (if c < 1 then DefaultUtmost else c) = L at hpos ⊢
  constructor
  · intro hle
    obtain ⟨d1, e1, e2, e3, e4⟩ := fill_spec L L.toNat 0 { cap := L.toNat, buf := [] } (le_refl 0)
      (by omega) (by omega) (by simp) (by simp only; omega)
    refine ⟨{ dispensed := 0, inUse := 0, maxInUse := 0, m := false, dispenser := d1,
              limit := L, wg := 0 }, by simp only [Chan.make, hle, if_true, e1], rfl, hpos,
      rfl, rfl, rfl, rfl, rfl, ?_, e3, ?_⟩
    · simp only [e2]
      omega
    · intro v
      simpa using e4 v
  · intro hlt
    have : ¬ L.toNat ≤ maxChanCap := by omega
    simp only [Chan.make, this, if_false]

theorem New_ok (c : Int) (t : TicketsMachine) (h : New c = .ok t) :
    t.limit = (if c < 1 then DefaultUtmost else c) ∧
    1 ≤ t.limit ∧ t.dispensed = 0 ∧ t.inUse = 0 ∧ t.maxInUse = 0 ∧ t.m = false ∧ t.wg = 0 ∧
    (t.dispenser.cap : Int) = t.limit ∧ (t.dispenser.buf.length : Int) = t.limit ∧
    ∀ v : Int, t.dispenser.buf.count v = if 0 ≤ v ∧ v < t.limit then 1 else 0 := by
  by_cases hle : (if c < 1 then DefaultUtmost else c).toNat ≤ maxChanCap
  · obtain ⟨t1, e, hp⟩ := (New_cases c).1 hle
    rw [h] at e
    cases e
    exact hp
  · have := (New_cases c).2 (by omega)
    rw [h] at this
    cases this

theorem New_not_blocked (c : Int) : New c ≠ .blocked := by
  by_cases hle : (if c < 1 then DefaultUtmost else c).toNat ≤ maxChanCap
  · obtain ⟨t1, e, _⟩ := (New_cases c).1 hle
    rw [e]
    intro h
    cases h
  · rw [(New_cases c).2 (by omega)]
    intro h
    cases h

theorem default_le_maxChanCap : DefaultUtmost.toNat ≤ maxChanCap := by
  unfold DefaultUtmost maxChanCap
  norm_num

theorem New_inv (c : Int) (t : TicketsMachine) (h : New c = .ok t) : Inv ⟨t, []⟩ := by
  obtain ⟨h1, h2, h3, h4, h5, h6, h7, h8, h9, h10⟩ := New_ok c t h
  constructor <;> simp [cnt, h2, h3, h4, h5, h6, h7, h8, h9, h10]
  omega

theorem reachable_inv (limit : Int) (s : Sys) (h : Reachable limit s) : Inv s := by
  obtain ⟨t, acts, h1, h2⟩ := h
  exact run_inv acts _ s h2 (New_inv limit t h1)

theorem Go_limit (t t1 : TicketsMachine) (g g1 : G) (h : TicketsMachine.Go t g = some (t1, g1)) :
    t1.limit = t.limit := by
  obtain ⟨pc, tk⟩ := g
  cases pc <;> simp only [TicketsMachine.Go, Chan.recv, Chan.send] at h <;> (repeat' split at h) <;>
    simp at h <;> (try obtain ⟨rfl, rfl⟩ := h) <;> rfl

theorem exec_step (s s1 : Sys) (i : Nat) (h : exec s (.step i) = some s1) :
    ∃ g t1 g1, s.gs[i]? = some g ∧ TicketsMachine.Go s.t g = some (t1, g1) ∧ s1 = ⟨t1, s.gs.set i g1⟩ := by
  simp only [exec] at h
  cases hg : s.gs[i]? with
  | none => simp [hg] at h
  | some g =>
    simp only [hg] at h
    cases hs : TicketsMachine.Go s.t g with
    | none => simp [hs] at h
    | some r =>
      obtain ⟨t1, g1⟩ := r
      simp only [hs, Option.some.injEq] at h
      exact ⟨g, t1, g1, rfl, hs, h.symm⟩

theorem exec_limit (s s1 : Sys) (a : Action) (h : exec s a = some s1) : s1.t.limit = s.t.limit := by
  cases a with
  | go =>
    simp only [exec, Option.some.injEq] at h
    subst h
    rfl
  | step i =>
    obtain ⟨g, t1, g1, hg, hs, rfl⟩ := exec_step s s1 i h
    exact Go_limit s.t t1 g g1 hs

theorem run_limit : ∀ (acts : List Action) (s s1 : Sys), run s acts = some s1 →
    s1.t.limit = s.t.limit
  | [], s, s1, h => by
    simp only [run, Option.some.injEq] at h
    subst h
    rfl
  | a :: as, s, s1, h => by
    simp only [run] at h
    cases he : exec s a with
    | none => simp [he] at h
    | some s2 =>
      simp only [he] at h
      rw [run_limit as s2 s1 h, exec_limit s s2 a he]

theorem reachable_limit (limit : Int) (s : Sys) (h : Reachable limit s) :
    s.t.limit = if limit < 1 then DefaultUtmost else limit := by
  obtain ⟨t, acts, h1, h2⟩ := h
  obtain ⟨hl, _⟩ := New_ok limit t h1
  rw [run_limit acts _ s h2, hl]

theorem cnt_pos (p : PC → Bool) (gs : List G) (i : Nat) (g : G) (h : gs[i]? = some g)
    (hp : p g.pc = true) : 1 ≤ cnt p gs := by
  have hm : g ∈ gs := List.getElem?_mem h
  unfold cnt
  exact List.countP_pos_iff.mpr ⟨g, hm, hp⟩

theorem countP_two (p : G → Bool) : ∀ (gs : List G) (i j : Nat) (gi gj : G), i ≠ j →
    gs[i]? = some gi → gs[j]? = some gj → p gi = true → p gj = true → 2 ≤ gs.countP p
  | [], i, j, gi, gj, _, hi, _, _, _ => by simp at hi
  | x :: xs, 0, 0, gi, gj, hij, _, _, _, _ => absurd rfl hij
  | x :: xs, 0, j + 1, gi, gj, _, hi, hj, pi, pj => by
    simp only [List.getElem?_cons_zero, Option.some.injEq] at hi
    simp only [List.getElem?_cons_succ] at hj
    subst hi
    have : 0 < xs.countP p := List.countP_pos_iff.mpr ⟨gj, List.getElem?_mem hj, pj⟩
    simp only [List.countP_cons, pi, if_true]
    omega
  | x :: xs, i + 1, 0, gi, gj, _, hi, hj, pi, pj => by
    simp only [List.getElem?_cons_zero, Option.some.injEq] at hj
    simp only [List.getElem?_cons_succ] at hi
    subst hj
    have : 0 < xs.countP p := List.countP_pos_iff.mpr ⟨gi, List.getElem?_mem hi, pi⟩
    simp only [List.countP_cons, pj, if_true]
    omega
  | x :: xs, i + 1, j + 1, gi, gj, hij, hi, hj, pi, pj => by
    simp only [List.getElem?_cons_succ] at hi hj
    have ih := countP_two p xs i j gi gj (by omega) hi hj pi pj
    simp only [List.countP_cons]
    omega

theorem cnt_two (p : PC → Bool) (gs : List G) (i j : Nat) (gi gj : G) (hij : i ≠ j)
    (hi : gs[i]? = some gi) (hj : gs[j]? = some gj) (pi : p gi.pc = true) (pj : p gj.pc = true) :
    2 ≤ cnt p gs :=
  countP_two (fun g => p g.pc) gs i j gi gj hij hi hj pi pj

theorem count_heldTickets (v : Int) : ∀ gs : List G, (heldTickets gs).count v = gs.countP (holdsV v)
  | [] => rfl
  | g :: gs => by
    have ih := count_heldTickets v gs
    unfold heldTickets at ih ⊢
    by_cases hh : g.pc.holds = true
    · by_cases hv : g.ticket = v
      · simp [List.filter_cons, hh, List.countP_cons, holdsV, hv, ih]
      · have hv2 : ¬ (g.ticket == v) = true := by simpa using hv
        simp [List.filter_cons, hh, List.countP_cons, holdsV, hv, hv2, List.count_cons, ih]
    · simp [List.filter_cons, hh, List.countP_cons, holdsV, ih]

theorem count_tickets (L v : Int) :
    (tickets L).count v = if 0 ≤ v ∧ v < L then 1 else 0 := by
  have hnd : (tickets L).Nodup :=
    List.Nodup.map (fun a b h => by simpa using h) (List.nodup_range _)
  rw [List.count_eq_of_nodup hnd]
  have hm : v ∈ tickets L ↔ (0 ≤ v ∧ v < L) := by
    simp only [tickets, List.mem_map, List.mem_range]
    constructor
    · rintro ⟨a, ha, rfl⟩
      simp only [Int.ofNat_eq_coe]
      omega
    · rintro ⟨h0, h1⟩
      exact ⟨v.toNat, by omega, by simp only [Int.ofNat_eq_coe]; omega⟩
  simp only [hm]

theorem cnt_split (p q r u : PC → Bool)
    (h : ∀ pc, (if p pc then 1 else 0) = (if q pc then 1 else 0) + (if r pc then 1 else 0)
      + (if u pc then 1 else 0)) :
    ∀ gs : List G, cnt p gs = cnt q gs + cnt r gs + cnt u gs
  | [] => rfl
  | g :: gs => by
    have ih := cnt_split p q r u h gs
    have hg := h g.pc
    unfold cnt at ih ⊢
    simp only [List.countP_cons]
    omega

theorem holds_split (gs : List G) :
    cnt PC.holds gs = cnt PC.counted gs + cnt PC.uncounted gs
      + cnt (fun pc => pc == .incInUse || pc == .dUnlock) gs :=
  cnt_split _ _ _ _ (by intro pc; cases pc <;> rfl) gs

theorem lockfree_noCS (s : Sys) (hI : Inv s) : s.t.m = false ↔ cnt PC.inCS s.gs = 0 := by
  have := hI.lock
  cases hm : s.t.m <;> simp [hm] at this ⊢ <;> omega

theorem exec_go (s s1 : Sys) (h : exec s .go = some s1) :
    s1 = { s with gs := s.gs ++ [{ pc := .recv, ticket := 0 }] } := by
  simp only [exec, Option.some.injEq] at h
  exact h.symm

theorem run_cons (s s1 : Sys) (a : Action) (as : List Action) (h : run s (a :: as) = some s1) :
    ∃ s2, exec s a = some s2 ∧ run s2 as = some s1 := by
  simp only [run] at h
  cases he : exec s a with
  | none => simp [he] at h
  | some s2 =>
    simp only [he] at h
    exact ⟨s2, rfl, h⟩

theorem run_length : ∀ (acts : List Action) (s s1 : Sys), run s acts = some s1 →
    s1.gs.length = s.gs.length + acts.count .go
  | [], s, s1, h => by
    simp only [run, Option.some.injEq] at h
    subst h
    simp
  | a :: as, s, s1, h => by
    obtain ⟨s2, he, hr⟩ := run_cons s s1 a as h
    have ih := run_length as s2 s1 hr
    cases a with
    | go =>
      rw [exec_go s s2 he] at ih
      simp at ih ⊢
      omega
    | step i =>
      obtain ⟨g, t1, g1, hg, hs, rfl⟩ := exec_step s s2 i he
      simp [List.count_cons] at ih ⊢
      omega

theorem Go_mono (t t1 : TicketsMachine) (g g1 : G) (h : TicketsMachine.Go t g = some (t1, g1)) :
    t.maxInUse ≤ t1.maxInUse ∧ t.dispensed ≤ t1.dispensed := by
  obtain ⟨pc, tk⟩ := g
  cases pc <;> simp only [TicketsMachine.Go, Chan.recv, Chan.send] at h <;> (repeat' split at h) <;>
    simp at h <;> (try obtain ⟨rfl, rfl⟩ := h) <;> (simp; try omega)

theorem exec_mono (s s1 : Sys) (a : Action) (h : exec s a = some s1) :
    s.t.maxInUse ≤ s1.t.maxInUse ∧ s.t.dispensed ≤ s1.t.dispensed := by
  cases a with
  | go =>
    rw [exec_go s s1 h]
    exact ⟨le_refl _, le_refl _⟩
  | step i =>
    obtain ⟨g, t1, g1, hg, hs, rfl⟩ := exec_step s s1 i h
    exact Go_mono s.t t1 g g1 hs

theorem run_mono : ∀ (acts : List Action) (s s1 : Sys), run s acts = some s1 →
    s.t.maxInUse ≤ s1.t.maxInUse ∧ s.t.dispensed ≤ s1.t.dispensed
  | [], s, s1, h => by
    simp only [run, Option.some.injEq] at h
    subst h
    exact ⟨le_refl _, le_refl _⟩
  | a :: as, s, s1, h => by
    obtain ⟨s2, he, hr⟩ := run_cons s s1 a as h
    have h1 := exec_mono s s2 a he
    have h2 := run_mono as s2 s1 hr
    exact ⟨le_trans h1.1 h2.1, le_trans h1.2 h2.2⟩

theorem states_mono : ∀ (acts : List Action) (s s1 : Sys), run s acts = some s1 →
    ∀ x ∈ states s acts, x.t.maxInUse ≤ s1.t.maxInUse ∧ x.t.dispensed ≤ s1.t.dispensed
  | [], s, s1, h, x, hx => by
    simp only [states, List.mem_singleton] at hx
    subst hx
    exact run_mono [] x s1 h
  | a :: as, s, s1, h, x, hx => by
    obtain ⟨s2, he, hr⟩ := run_cons s s1 a as h
    simp only [states, he, List.mem_cons] at hx
    rcases hx with rfl | hx
    · exact run_mono (a :: as) x s1 h
    · exact states_mono as s2 s1 hr x hx

theorem states_last : ∀ (acts : List Action) (s s1 : Sys), run s acts = some s1 →
    s ∈ states s acts ∧ s1 ∈ states s acts
  | [], s, s1, h => by
    simp only [run, Option.some.injEq] at h
    subst h
    simp [states]
  | a :: as, s, s1, h => by
    obtain ⟨s2, he, hr⟩ := run_cons s s1 a as h
    have ih := states_last as s2 s1 hr
    simp only [states, he]
    exact ⟨List.mem_cons_self _ _, List.mem_cons_of_mem _ ih.2⟩

theorem inCS_split (gs : List G) :
    cnt PC.inCS gs = cnt PC.maxPending gs
      + cnt (fun pc => pc == .incInUse || pc == .unlock) gs
      + cnt (fun pc => pc == .dDec || pc == .dUnlock) gs :=
  cnt_split _ _ _ _ (by intro pc; cases pc <;> rfl) gs

theorem Go_peak (s : Sys) (i : Nat) (g g1 : G) (t1 : TicketsMachine)
    (hg : s.gs[i]? = some g) (hs : TicketsMachine.Go s.t g = some (t1, g1)) (hI : Inv s) :
    max t1.maxInUse t1.inUse = max (max s.t.maxInUse s.t.inUse) t1.inUse := by
  obtain ⟨t, gs⟩ := s
  have h1 : t.inUse ≤ t.maxInUse + cnt PC.maxPending gs := hI.maxLo
  have h2 : cnt PC.inCS gs = if t.m then 1 else 0 := hI.lock
  have h3 := inCS_split gs
  have h4 : g.pc = .dDec → 1 ≤ cnt (fun pc => pc == .dDec || pc == .dUnlock) gs := by
    intro hpc
    exact cnt_pos _ gs i g hg (by simp [hpc])
  have h5 : (if t.m = true then 1 else 0) ≤ 1 := by split_ifs <;> omega
  clear hI hg
  obtain ⟨pc, tk⟩ := g
  cases pc <;> simp only [TicketsMachine.Go, Chan.recv, Chan.send] at hs <;> (repeat' split at hs) <;>
    simp at hs <;> (try obtain ⟨rfl, rfl⟩ := hs) <;> simp at h4 ⊢ <;> omega

theorem exec_peak (s s1 : Sys) (a : Action) (h : exec s a = some s1) (hI : Inv s) :
    max s1.t.maxInUse s1.t.inUse = max (max s.t.maxInUse s.t.inUse) s1.t.inUse := by
  cases a with
  | go =>
    rw [exec_go s s1 h]
    simp
  | step i =>
    obtain ⟨g, t1, g1, hg, hs, rfl⟩ := exec_step s s1 i h
    exact Go_peak s i g g1 t1 hg hs hI

theorem run_peak : ∀ (acts : List Action) (s s1 : Sys), run s acts = some s1 → Inv s →
    max s.t.maxInUse s.t.inUse ≤ max s1.t.maxInUse s1.t.inUse ∧
    (∀ x ∈ states s acts, x.t.inUse ≤ max s1.t.maxInUse s1.t.inUse) ∧
    (max s1.t.maxInUse s1.t.inUse = max s.t.maxInUse s.t.inUse ∨
      ∃ x ∈ states s acts, x.t.inUse = max s1.t.maxInUse s1.t.inUse)
  | [], s, s1, h, _ => by
    simp only [run, Option.some.injEq] at h
    subst h
    refine ⟨le_refl _, ?_, Or.inl rfl⟩
    intro x hx
    simp only [states, List.mem_singleton] at hx
    subst hx
    exact le_max_right _ _
  | a :: as, s, s1, h, hI => by
    obtain ⟨s2, he, hr⟩ := run_cons s s1 a as h
    have hp := exec_peak s s2 a he hI
    obtain ⟨i1, i2, i3⟩ := run_peak as s2 s1 hr (exec_inv s s2 a he hI)
    have hs2 : s2 ∈ states s2 as := (states_last as s2 s1 hr).1
    have hle : max s.t.maxInUse s.t.inUse ≤ max s2.t.maxInUse s2.t.inUse := by
      rw [hp]
      exact le_max_left _ _
    have hmem : ∀ x ∈ states s2 as, x ∈ states s (a :: as) := by
      intro x hx
      simp only [states, he]
      exact List.mem_cons_of_mem _ hx
    refine ⟨le_trans hle i1, ?_, ?_⟩
    · intro x hx
      simp only [states, he, List.mem_cons] at hx
      rcases hx with rfl | hx
      · exact le_trans (le_trans (le_max_right _ _) hle) i1
      · exact i2 x hx
    · rcases i3 with i3 | ⟨x, hx, i3⟩
      · by_cases hc : max s2.t.maxInUse s2.t.inUse = max s.t.maxInUse s.t.inUse
        · left
          rw [i3, hc]
        · right
          refine ⟨s2, hmem s2 hs2, ?_⟩
          rw [i3]
          rw [hp] at hc ⊢
          rcases max_choice (max s.t.maxInUse s.t.inUse) s2.t.inUse with hm | hm
          · exact absurd hm hc
          · exact hm.symm
      · exact Or.inr ⟨x, hmem x hx, i3⟩

/-! ## Order of the statements of one thread -/

theorem Go_pastDec (t t1 : TicketsMachine) (g g1 : G) (h : TicketsMachine.Go t g = some (t1, g1))
    (hA : g1.pc.pastDec = true) : g.pc.pastDec = true ∨ g.pc = .dDec := by
  obtain ⟨pc, tk⟩ := g
  cases pc <;> simp only [TicketsMachine.Go, Chan.recv, Chan.send] at h <;> (repeat' split at h) <;>
    simp at h <;> (try obtain ⟨rfl, rfl⟩ := h) <;> simp [PC.pastDec] at hA ⊢

theorem Go_pastSend (t t1 : TicketsMachine) (g g1 : G) (h : TicketsMachine.Go t g = some (t1, g1))
    (hA : g1.pc.pastSend = true) : g.pc.pastSend = true ∨ g.pc = .dSend := by
  obtain ⟨pc, tk⟩ := g
  cases pc <;> simp only [TicketsMachine.Go, Chan.recv, Chan.send] at h <;> (repeat' split at h) <;>
    simp at h <;> (try obtain ⟨rfl, rfl⟩ := h) <;> simp [PC.pastSend] at hA ⊢

theorem events_order (A : PC → Bool) (p q : PC) (hrecv : A .recv = false) (hq : A q = true)
    (hstep : ∀ (t t1 : TicketsMachine) (g g1 : G), TicketsMachine.Go t g = some (t1, g1) → A g1.pc = true →
      A g.pc = true ∨ g.pc = p) :
    ∀ (acts : List Action) (s : Sys) (k i : Nat), (events s acts)[k]? = some (i, q) →
      (∃ j, j < k ∧ (events s acts)[j]? = some (i, p)) ∨ (∃ g, s.gs[i]? = some g ∧ A g.pc = true)
  | [], s, k, i, h => by simp [events] at h
  | a :: as, s, k, i, h => by
    simp only [events] at h ⊢
    cases he : exec s a with
    | none => simp [he] at h
    | some s2 =>
      simp only [he] at h ⊢
      cases a with
      | go =>
        simp only at h ⊢
        rcases events_order A p q hrecv hq hstep as s2 k i h with hl | ⟨g, hg, hAg⟩
        · exact Or.inl hl
        · right
          rw [exec_go s s2 he] at hg
          simp only at hg
          rw [List.getElem?_append] at hg
          split_ifs at hg with hlt
          · exact ⟨g, hg, hAg⟩
          · exfalso
            have hmem := List.getElem?_mem hg
            simp only [List.mem_singleton] at hmem
            subst hmem
            simp [hrecv] at hAg
      | step i0 =>
        obtain ⟨g0, t1, g1, hg0, hs, rfl⟩ := exec_step s s2 i0 he
        simp only [hg0] at h ⊢
        cases k with
        | zero =>
          simp only [List.getElem?_cons_zero, Option.some.injEq, Prod.mk.injEq] at h
          obtain ⟨rfl, hpc⟩ := h
          exact Or.inr ⟨g0, hg0, by rw [hpc]; exact hq⟩
        | succ k1 =>
          simp only [List.getElem?_cons_succ] at h
          rcases events_order A p q hrecv hq hstep as _ k1 i h with ⟨j, hj, hl⟩ | ⟨g, hg, hAg⟩
          · exact Or.inl ⟨j + 1, by omega, by simpa using hl⟩
          · simp only at hg
            by_cases hi : i0 = i
            · subst hi
              rw [List.getElem?_set_self', hg0] at hg
              simp only [Option.map_eq_map, Option.map_some', Function.const_apply,
                Option.some.injEq] at hg
              rw [← hg] at hAg
              rcases hstep s.t t1 g0 g1 hs hAg with h1 | h1
              · exact Or.inr ⟨g0, hg0, h1⟩
              · exact Or.inl ⟨0, by omega, by simp [h1]⟩
            · rw [List.getElem?_set_ne hi] at hg
              exact Or.inr ⟨g, hg, hAg⟩

theorem states_limit : ∀ (acts : List Action) (s x : Sys), x ∈ states s acts →
    x.t.limit = s.t.limit
  | [], s, x, hx => by
    simp only [states, List.mem_singleton] at hx
    rw [hx]
  | a :: as, s, x, hx => by
    simp only [states] at hx
    cases he : exec s a with
    | none =>
      simp only [he, List.mem_singleton] at hx
      rw [hx]
    | some s2 =>
      simp only [he, List.mem_cons] at hx
      rcases hx with rfl | hx
      · rfl
      · rw [states_limit as s2 x hx, exec_limit s s2 a he]

theorem all_exited (s : Sys) (hI : Inv s) (hret : ∀ g ∈ s.gs, g.pc.returned = true)
    (hwait : s.t.Wait = some ()) : ∀ g ∈ s.gs, g.pc = .exited := by
  have h1 := hI.wg
  unfold TicketsMachine.Wait at hwait
  split_ifs at hwait with hw
  have h2 : cnt PC.registered s.gs = 0 := by omega
  unfold cnt at h2
  rw [List.countP_eq_zero] at h2
  intro g hg
  have h3 := h2 g hg
  have h4 := hret g hg
  revert h3 h4
  cases g.pc <;> simp [PC.registered, PC.returned]

theorem cnt_zero (p : PC → Bool) (gs : List G) (h : ∀ g ∈ gs, p g.pc = false) : cnt p gs = 0 := by
  unfold cnt
  rw [List.countP_eq_zero]
  intro g hg
  simp [h g hg]

theorem cnt_all (p : PC → Bool) (gs : List G) (h : ∀ g ∈ gs, p g.pc = true) :
    cnt p gs = gs.length := by
  unfold cnt
  rw [List.countP_eq_length]
  exact h

/-! ## Progress: no deadlock -/

theorem work_set : ∀ (gs : List G) (i : Nat) (g g1 : G), gs[i]? = some g →
    work (gs.set i g1) + g.pc.togo = work gs + g1.pc.togo
  | [], i, g, g1, h => by simp at h
  | x :: xs, 0, g, g1, h => by
    simp only [List.getElem?_cons_zero, Option.some.injEq] at h
    subst h
    simp only [work, List.set_cons_zero, List.map_cons, List.sum_cons]
    omega
  | x :: xs, i + 1, g, g1, h => by
    simp only [List.getElem?_cons_succ] at h
    have ih := work_set xs i g g1 h
    simp only [work, List.set_cons_succ, List.map_cons, List.sum_cons] at ih ⊢
    omega

theorem Go_togo (t t1 : TicketsMachine) (g g1 : G) (h : TicketsMachine.Go t g = some (t1, g1)) :
    g1.pc.togo + 1 = g.pc.togo := by
  obtain ⟨pc, tk⟩ := g
  cases pc <;> simp only [TicketsMachine.Go, Chan.recv, Chan.send] at h <;> (repeat' split at h) <;>
    simp at h <;> (try obtain ⟨rfl, rfl⟩ := h) <;> rfl

theorem exec_of_Go (s : Sys) (i : Nat) (g g1 : G) (t1 : TicketsMachine)
    (hg : s.gs[i]? = some g) (hs : TicketsMachine.Go s.t g = some (t1, g1)) :
    exec s (.step i) = some ⟨t1, s.gs.set i g1⟩ := by
  simp only [exec, hg, hs]

theorem exists_of_cnt_pos (p : PC → Bool) (gs : List G) (h : 0 < cnt p gs) :
    ∃ (i : Nat) (g : G), gs[i]? = some g ∧ p g.pc = true := by
  unfold cnt at h
  obtain ⟨g, hm, hp⟩ := List.countP_pos_iff.mp h
  obtain ⟨i, hi⟩ := List.getElem?_of_mem hm
  exact ⟨i, g, hi, hp⟩

theorem work_pos : ∀ gs : List G, 0 < work gs → 0 < cnt (fun pc => pc != .exited) gs
  | [], h => by simp [work] at h
  | g :: gs, h => by
    simp only [work, List.map_cons, List.sum_cons] at h
    simp only [cnt, List.countP_cons]
    by_cases hg : g.pc = .exited
    · have h2 : 0 < work gs := by
        simp only [hg, PC.togo] at h
        simpa [work] using h
      have := work_pos gs h2
      simp only [cnt] at this
      omega
    · have : (g.pc != .exited) = true := by simpa using hg
      simp only [this, if_true]
      omega

/-- A thread that is neither blocked nor ended executes its statement. -/
theorem Go_enabled (s : Sys) (hI : Inv s) (i : Nat) (g : G) (hg : s.gs[i]? = some g)
    (h : s.t.m = true ∧ g.pc.inCS = true ∨
      s.t.m = false ∧ g.pc ≠ .exited ∧ (g.pc = .recv → s.t.dispenser.buf ≠ [])) :
    ∃ t1 g1, TicketsMachine.Go s.t g = some (t1, g1) := by
  have h1 := hI.len
  have h2 := hI.cap
  have h3 := hI.wg
  have h4 := (lockfree_noCS s hI)
  have c1 : g.pc.holds = true → 1 ≤ cnt PC.holds s.gs := cnt_pos PC.holds s.gs i g hg
  have c2 : g.pc.registered = true → 1 ≤ cnt PC.registered s.gs :=
    cnt_pos PC.registered s.gs i g hg
  have c3 : g.pc.inCS = true → 1 ≤ cnt PC.inCS s.gs := cnt_pos PC.inCS s.gs i g hg
  obtain ⟨pc, tk⟩ := g
  rcases h with ⟨hm, hcs⟩ | ⟨hm, hne, hbuf⟩
  · cases pc <;> simp [PC.inCS] at hcs <;> simp [TicketsMachine.Go, hm]
  · have h5 := h4.mp hm
    cases pc
    case recv =>
      cases hb : s.t.dispenser.buf with
      | nil => exact absurd hb (hbuf rfl)
      | cons v rest => simp [TicketsMachine.Go, Chan.recv, hb]
    case dSend =>
      have c1 := c1 rfl
      have hlt : s.t.dispenser.buf.length < s.t.dispenser.cap := by omega
      simp [TicketsMachine.Go, Chan.send, hlt]
    case dDone =>
      have c2 := c2 rfl
      have hwg : ¬ (s.t.wg - 1 < 0) := by omega
      simp [TicketsMachine.Go, hwg]
    case exited => exact absurd rfl hne
    all_goals first
      | (have c3 := c3 rfl; omega)
      | simp [TicketsMachine.Go, hm]

theorem progress (s : Sys) (hI : Inv s) (hw : 0 < work s.gs) :
    ∃ i s1, exec s (.step i) = some s1 ∧ work s1.gs + 1 = work s.gs := by
  have key : ∃ (i : Nat) (g : G), s.gs[i]? = some g ∧ (s.t.m = true ∧ g.pc.inCS = true ∨
      s.t.m = false ∧ g.pc ≠ .exited ∧ (g.pc = .recv → s.t.dispenser.buf ≠ [])) := by
    have h0 := hI.lock
    cases hm : s.t.m
    · simp only [hm, Bool.false_eq_true, if_false] at h0
      by_cases hb : s.t.dispenser.buf = []
      · have h1 := hI.len
        have h2 := hI.limPos
        have h3 : 0 < cnt PC.holds s.gs := by
          rw [hb] at h1
          simp at h1
          omega
        obtain ⟨i, g, hg, hp⟩ := exists_of_cnt_pos _ _ h3
        refine ⟨i, g, hg, Or.inr ⟨rfl, ?_, ?_⟩⟩
        · intro hx
          rw [hx] at hp
          simp [PC.holds] at hp
        · intro hx
          rw [hx] at hp
          simp [PC.holds] at hp
      · obtain ⟨i, g, hg, hp⟩ := exists_of_cnt_pos _ _ (work_pos s.gs hw)
        exact ⟨i, g, hg, Or.inr ⟨rfl, by simpa using hp, fun _ => hb⟩⟩
    · simp only [hm, if_true] at h0
      obtain ⟨i, g, hg, hp⟩ := exists_of_cnt_pos PC.inCS s.gs (by omega)
      exact ⟨i, g, hg, Or.inl ⟨rfl, hp⟩⟩
  obtain ⟨i, g, hg, hc⟩ := key
  obtain ⟨t1, g1, hs⟩ := Go_enabled s hI i g hg hc
  refine ⟨i, _, exec_of_Go s i g g1 t1 hg hs, ?_⟩
  have h1 := work_set s.gs i g g1 hg
  have h2 := Go_togo s.t t1 g g1 hs
  simp only
  omega

theorem work_zero : ∀ gs : List G, work gs = 0 → ∀ g ∈ gs, g.pc = .exited
  | [], _, g, hg => by simp at hg
  | x :: xs, h, g, hg => by
    simp only [work, List.map_cons, List.sum_cons] at h
    have hx : x.pc.togo = 0 := by omega
    have hxs : work xs = 0 := by
      simp only [work]
      omega
    rcases List.mem_cons.mp hg with rfl | hg
    · revert hx
      cases g.pc <;> simp [PC.togo]
    · exact work_zero xs hxs g hg

/-- No deadlock: from every state satisfying the invariant, the threads can all be run to
their end without any further call of `Go`. -/
theorem drain : ∀ (n : Nat) (s : Sys), Inv s → work s.gs = n →
    ∃ acts s1, run s acts = some s1 ∧ acts.count .go = 0 ∧ ∀ g ∈ s1.gs, g.pc = .exited
  | 0, s, _, hn => ⟨[], s, rfl, rfl, work_zero s.gs hn⟩
  | n + 1, s, hI, hn => by
    obtain ⟨i, s1, he, hw⟩ := progress s hI (by omega)
    obtain ⟨acts, s2, hr, hc, hx⟩ := drain n s1 (exec_inv s s1 _ he hI) (by omega)
    refine ⟨.step i :: acts, s2, by simp only [run, he, hr], ?_, hx⟩
    simp [List.count_cons, hc]

theorem run_append : ∀ (as bs : List Action) (s s1 s2 : Sys), run s as = some s1 →
    run s1 bs = some s2 → run s (as ++ bs) = some s2
  | [], bs, s, s1, s2, h1, h2 => by
    simp only [run, Option.some.injEq] at h1
    subst h1
    exact h2
  | a :: as, bs, s, s1, s2, h1, h2 => by
    obtain ⟨s3, he, hr⟩ := run_cons s s1 a as h1
    simp only [List.cons_append, run, he]
    exact run_append as bs s3 s1 s2 hr h2

/-! ## After `Wait` -/

theorem exited_wait (s : Sys) (hI : Inv s) (hx : ∀ g ∈ s.gs, g.pc = .exited) :
    s.t.Wait = some () := by
  have h1 := hI.wg
  have h2 := cnt_zero PC.registered s.gs (by intro g hg; rw [hx g hg]; rfl)
  have h3 : s.t.wg = 0 := by omega
  simp [TicketsMachine.Wait, h3]

theorem wait_counters (limit : Int) (t0 : TicketsMachine) (acts : List Action) (s : Sys)
    (hNew : New limit = .ok t0) (hrun : run ⟨t0, []⟩ acts = some s)
    (hret : ∀ g ∈ s.gs, g.pc.returned = true) (hwait : s.t.Wait = some ()) :
    s.t.Dispensed = some (acts.count .go : Int) ∧ s.t.InUse = some 0 := by
  have hI := run_inv acts _ s hrun (New_inv limit t0 hNew)
  have hx := all_exited s hI hret hwait
  have hlen := run_length acts _ s hrun
  simp only [List.length_nil, Nat.zero_add] at hlen
  have h1 := cnt_zero PC.inCS s.gs (by intro g hg; rw [hx g hg]; rfl)
  have h2 := cnt_zero PC.counted s.gs (by intro g hg; rw [hx g hg]; rfl)
  have h3 := cnt_all PC.dispensedDone s.gs (by intro g hg; rw [hx g hg]; rfl)
  have hm := (lockfree_noCS s hI).mpr h1
  have h4 := hI.inUse
  have h5 := hI.disp
  simp only [TicketsMachine.Dispensed, TicketsMachine.InUse, hm, Bool.false_eq_true, if_false,
    Option.some.injEq]
  omega

/-! ## The claims -/

/-- Claim C1. In every state reachable from `New(limit)`, the number of task bodies that
are executing is at most the limit of the machine, which is also what `Limit()` returns;
and with `limit = 1` two threads that are both inside their task body are the same. -/
theorem C1_running_bodies_le_limit (limit : Int) (s : Sys) (h : Reachable limit s) :
    (running s : Int) ≤ s.t.limit ∧
    (∀ c, s.t.Limit = some c → (running s : Int) ≤ c) ∧
    (limit = 1 → ∀ (i j : Nat) (gi gj : G), s.gs[i]? = some gi → s.gs[j]? = some gj →
      gi.pc = .body → gj.pc = .body → i = j) := by
  have hI := reachable_inv limit s h
  have hl := reachable_limit limit s h
  have hm : running s ≤ cnt PC.holds s.gs :=
    cnt_mono _ _ (by intro pc; cases pc <;> simp [PC.holds]) s.gs
  have hlen := hI.len
  have hle : (running s : Int) ≤ s.t.limit := by omega
  refine ⟨hle, ?_, ?_⟩
  · intro c hc
    unfold TicketsMachine.Limit at hc
    split_ifs at hc
    simp only [Option.some.injEq] at hc
    omega
  · intro h1 i j gi gj hi hj pi pj
    by_contra hij
    have h2 := cnt_two (fun pc => pc == .body) s.gs i j gi gj hij hi hj (by simp [pi]) (by simp [pj])
    rw [h1] at hl
    simp at hl
    unfold running at hle
    omega

theorem C1_witness :
    Reachable 1 bodyRunning ∧ (running bodyRunning : Int) ≤ bodyRunning.t.limit ∧
      running bodyRunning = 1 :=
  ⟨⟨machine1, untilBody, rfl, rfl⟩,
   (C1_running_bodies_le_limit 1 bodyRunning ⟨machine1, untilBody, rfl, rfl⟩).1, rfl⟩

/-- Claim C2. In every state reachable from `New(limit)`: `0 ≤ inUse ≤ limit` and
`0 ≤ maxInUse ≤ limit`; when no thread is inside a critical section also
`inUse ≤ maxInUse`; so whatever `InUse()`, `MaxInUse()` and `Limit()` return satisfies
`0 ≤ InUse() ≤ MaxInUse() ≤ Limit()`.  The accessors are not blocked for ever: the threads
can always be run on to a state in which all three return. -/
theorem C2_counters_within_limit (limit : Int) (s : Sys) (h : Reachable limit s) :
    (0 ≤ s.t.inUse ∧ s.t.inUse ≤ s.t.limit ∧ 0 ≤ s.t.maxInUse ∧ s.t.maxInUse ≤ s.t.limit) ∧
    (cnt PC.inCS s.gs = 0 → 0 ≤ s.t.inUse ∧ s.t.inUse ≤ s.t.maxInUse ∧
      s.t.maxInUse ≤ s.t.limit) ∧
    (∀ a b c, s.t.InUse = some a → s.t.MaxInUse = some b → s.t.Limit = some c →
      0 ≤ a ∧ a ≤ b ∧ b ≤ c) ∧
    (∃ acts2 s2, acts2.count .go = 0 ∧ run s acts2 = some s2 ∧
      s2.t.InUse.isSome = true ∧ s2.t.MaxInUse.isSome = true ∧ s2.t.Limit.isSome = true) := by
  have hI := reachable_inv limit s h
  have hm : cnt PC.counted s.gs ≤ cnt PC.holds s.gs :=
    cnt_mono _ _ (by intro pc; cases pc <;> simp [PC.holds, PC.counted]) s.gs
  have hp : cnt PC.maxPending s.gs ≤ cnt PC.inCS s.gs :=
    cnt_mono _ _ (by intro pc; cases pc <;> simp [PC.maxPending, PC.inCS]) s.gs
  have h1 := hI.inUse
  have h2 := hI.len
  have h3 := hI.maxLo
  have h4 := hI.maxNonneg
  have h5 := hI.maxHi
  have h6 := (lockfree_noCS s hI)
  refine ⟨⟨by omega, by omega, h4, h5⟩, by intro h0; omega, ?_, ?_⟩
  · intro a b c ha hb hc
    unfold TicketsMachine.InUse at ha
    unfold TicketsMachine.MaxInUse at hb
    unfold TicketsMachine.Limit at hc
    split_ifs at ha hb hc with hmm
    simp only [Option.some.injEq] at ha hb hc
    have h7 := h6.mp (by simpa using hmm)
    omega
  · obtain ⟨acts2, s2, hr2, hc2, hx2⟩ := drain (work s.gs) s hI rfl
    have hI2 := run_inv acts2 s s2 hr2 hI
    have hz := cnt_zero PC.inCS s2.gs (by intro g hg; rw [hx2 g hg]; rfl)
    have hm2 := (lockfree_noCS s2 hI2).mpr hz
    exact ⟨acts2, s2, hc2, hr2, by simp [TicketsMachine.InUse, hm2],
      by simp [TicketsMachine.MaxInUse, hm2], by simp [TicketsMachine.Limit, hm2]⟩

theorem C2_witness :
    Reachable 1 bodyRunning ∧ bodyRunning.t.InUse = some 1 ∧ bodyRunning.t.MaxInUse = some 1 ∧
      bodyRunning.t.Limit = some 1 ∧ ((0 : Int) ≤ 1 ∧ (1 : Int) ≤ 1 ∧ (1 : Int) ≤ 1) :=
  ⟨⟨machine1, untilBody, rfl, rfl⟩, rfl, rfl, rfl,
   (C2_counters_within_limit 1 bodyRunning ⟨machine1, untilBody, rfl, rfl⟩).2.2.1 1 1 1
     rfl rfl rfl⟩

/-- Claim C3. If exactly `N` calls of `Go` were made on the machine `New(limit)` returned,
all of them have returned, and `Wait()` returns, then `Dispensed()` returns `N` and
`InUse()` returns `0`.  And `Wait()` does return when the tasks terminate: from every
reachable state the threads can be run on, without a further call of `Go`, to a state in
which `Wait()` returns, `Dispensed()` returns `N` and `InUse()` returns `0`. -/
theorem C3_counters_after_wait (limit : Int) (t0 : TicketsMachine) (acts : List Action)
    (s : Sys) (N : Nat) (hNew : New limit = .ok t0) (hrun : run ⟨t0, []⟩ acts = some s)
    (hN : acts.count .go = N) :
    ((∀ g ∈ s.gs, g.pc.returned = true) → s.t.Wait = some () →
      s.t.Dispensed = some (N : Int) ∧ s.t.InUse = some 0) ∧
    (∃ acts2 s2, acts2.count .go = 0 ∧ run s acts2 = some s2 ∧ s2.t.Wait = some () ∧
      s2.t.Dispensed = some (N : Int) ∧ s2.t.InUse = some 0) := by
  subst hN
  refine ⟨fun hret hwait => wait_counters limit t0 acts s hNew hrun hret hwait, ?_⟩
  have hI := run_inv acts _ s hrun (New_inv limit t0 hNew)
  obtain ⟨acts2, s2, hr2, hc2, hx2⟩ := drain (work s.gs) s hI rfl
  have hI2 := run_inv acts2 s s2 hr2 hI
  have hw2 := exited_wait s2 hI2 hx2
  have hrun2 := run_append acts acts2 _ s s2 hrun hr2
  have hret2 : ∀ g ∈ s2.gs, g.pc.returned = true := by
    intro g hg
    rw [hx2 g hg]
    rfl
  have := wait_counters limit t0 (acts ++ acts2) s2 hNew hrun2 hret2 hw2
  rw [List.count_append, hc2, Nat.add_zero] at this
  exact ⟨acts2, s2, hc2, hr2, hw2, this⟩

theorem C3_witness :
    New 1 = .ok machine1 ∧ run ⟨machine1, []⟩ twoTasks = some allDone ∧
      twoTasks.count .go = 2 ∧ allDone.t.Wait = some () ∧
      allDone.t.Dispensed = some 2 ∧ allDone.t.InUse = some 0 :=
  ⟨rfl, rfl, rfl, rfl,
   (C3_counters_after_wait 1 machine1 twoTasks allDone 2 rfl rfl rfl).1 (by decide) rfl⟩

/-- Claim C5. For every argument, the machine `New` returns has `Dispensed() = 0`,
`InUse() = 0`, `MaxInUse() = 0`, and its dispenser holds exactly `Limit()` tickets: the
tickets `0 .. Limit()-1`, each once.  `New` does return a machine for every argument up to
`maxChanCap`. -/
theorem C5_New_initial_state (c : Int) :
    (∀ t, New c = .ok t →
      t.Dispensed = some 0 ∧ t.InUse = some 0 ∧ t.MaxInUse = some 0 ∧
      ∃ l, t.Limit = some l ∧ (t.dispenser.buf.length : Int) = l ∧
        t.dispenser.buf.Perm (tickets l)) ∧
    (c ≤ maxChanCap → ∃ t, New c = .ok t) := by
  constructor
  · intro t e
    obtain ⟨hl, _, h1, h2, h3, hm, _, _, h4, h5⟩ := New_ok c t e
    refine ⟨by simp [TicketsMachine.Dispensed, hm, h1], by simp [TicketsMachine.InUse, hm, h2],
      by simp [TicketsMachine.MaxInUse, hm, h3], t.limit, by simp [TicketsMachine.Limit, hm], h4, ?_⟩
    rw [List.perm_iff_count]
    intro v
    rw [count_tickets]
    exact h5 v
  · intro hc
    have hd := default_le_maxChanCap
    obtain ⟨t, e, _⟩ := (New_cases c).1 (by split_ifs <;> omega)
    exact ⟨t, e⟩

theorem C5_witness :
    New 1 = .ok machine1 ∧ machine1.Dispensed = some 0 ∧ machine1.InUse = some 0 ∧
      machine1.MaxInUse = some 0 ∧ machine1.Limit = some 1 ∧ machine1.dispenser.buf = [0] :=
  have h := (C5_New_initial_state 1).1 machine1 rfl
  ⟨rfl, h.1, h.2.1, h.2.2.1, rfl, rfl⟩

/-- Claim C6 as stated fails: after one call of `Go` on `New(1)` has received the ticket
(line 54) and before it locks the mutex (line 55), no thread is inside a critical section,
the dispenser is empty and `inUse` is `0`, while the limit is `1`. -/
theorem C6_counterexample :
    ¬ ∀ (limit : Int) (s : Sys), Reachable limit s → cnt PC.inCS s.gs = 0 →
        (s.t.dispenser.buf.length : Int) + s.t.inUse = s.t.limit := by
  intro h
  have hr : Reachable 1 ticketTaken := ⟨machine1, untilTicket, rfl, rfl⟩
  have h1 := h 1 ticketTaken hr rfl
  simp [ticketTaken] at h1

/-- Claim C6, amended. In every reachable state in which no thread is inside a critical
section, the tickets in the dispenser, plus `inUse`, plus the threads that hold a ticket
which `inUse` does not count (after line 54 and before line 55, or after line 74 and before
line 75) make up `limit`; so dispenser plus `inUse` is at most `limit`, and equals `limit`
when no thread is at one of these two places. -/
theorem C6_pool_plus_inUse (limit : Int) (s : Sys) (h : Reachable limit s)
    (hcs : cnt PC.inCS s.gs = 0) :
    (s.t.dispenser.buf.length : Int) + s.t.inUse + cnt PC.uncounted s.gs = s.t.limit ∧
    (s.t.dispenser.buf.length : Int) + s.t.inUse ≤ s.t.limit ∧
    (cnt PC.uncounted s.gs = 0 → (s.t.dispenser.buf.length : Int) + s.t.inUse = s.t.limit) := by
  have hI := reachable_inv limit s h
  have h1 := hI.inUse
  have h2 := hI.len
  have h3 := holds_split s.gs
  have h4 : cnt (fun pc => pc == .incInUse || pc == .dUnlock) s.gs ≤ cnt PC.inCS s.gs :=
    cnt_mono _ _ (by intro pc; cases pc <;> simp [PC.inCS]) s.gs
  refine ⟨by omega, by omega, by intro h0; omega⟩

theorem C6_witness :
    Reachable 1 ticketTaken ∧ cnt PC.inCS ticketTaken.gs = 0 ∧
      (ticketTaken.t.dispenser.buf.length : Int) + ticketTaken.t.inUse
        + cnt PC.uncounted ticketTaken.gs = ticketTaken.t.limit :=
  ⟨⟨machine1, untilTicket, rfl, rfl⟩, rfl,
   (C6_pool_plus_inUse 1 ticketTaken ⟨machine1, untilTicket, rfl, rfl⟩ rfl).1⟩

/-- Claim C7. Along every execution: `inUse` is the number of threads between their
increment (line 56) and their decrement (line 73); the ticket of such a thread is never in
the dispenser; every execution of line 75 (ticket put back) by a thread comes after an
execution of line 73 (decrement) by the same thread, and every execution of line 76
(`wg.Done`) after its executions of line 73 and then of line 75. -/
theorem C7_decrement_before_ticket_return (limit : Int) (t0 : TicketsMachine)
    (acts : List Action) (s : Sys)
    (hNew : New limit = .ok t0) (hrun : run ⟨t0, []⟩ acts = some s) :
    s.t.inUse = cnt PC.counted s.gs ∧
    (∀ (i : Nat) (g : G), s.gs[i]? = some g → g.pc.counted = true →
      g.ticket ∉ s.t.dispenser.buf) ∧
    (∀ k i : Nat, (events ⟨t0, []⟩ acts)[k]? = some (i, .dSend) →
      ∃ j, j < k ∧ (events ⟨t0, []⟩ acts)[j]? = some (i, .dDec)) ∧
    (∀ k i : Nat, (events ⟨t0, []⟩ acts)[k]? = some (i, .dDone) →
      ∃ j1 j2, j1 < j2 ∧ j2 < k ∧ (events ⟨t0, []⟩ acts)[j1]? = some (i, .dDec) ∧
        (events ⟨t0, []⟩ acts)[j2]? = some (i, .dSend)) := by
  have hI := run_inv acts _ s hrun (New_inv limit t0 hNew)
  have hsend : ∀ k i : Nat, (events ⟨t0, []⟩ acts)[k]? = some (i, .dSend) →
      ∃ j, j < k ∧ (events ⟨t0, []⟩ acts)[j]? = some (i, .dDec) := by
    intro k i h
    rcases events_order PC.pastDec .dDec .dSend rfl rfl Go_pastDec acts _ k i h with hl | ⟨g, hg, _⟩
    · exact hl
    · simp at hg
  refine ⟨hI.inUse, ?_, hsend, ?_⟩
  · intro i g hg hc hmem
    have h1 := hI.tix g.ticket
    have h2 : 0 < s.gs.countP (holdsV g.ticket) := by
      rw [List.countP_pos_iff]
      refine ⟨g, List.getElem?_mem hg, ?_⟩
      have : g.pc.holds = true := by
        revert hc
        cases g.pc <;> simp [PC.counted, PC.holds]
      simp [holdsV, this]
    have h3 : 0 < s.t.dispenser.buf.count g.ticket := List.count_pos_iff.mpr hmem
    split_ifs at h1 <;> omega
  · intro k i h
    rcases events_order PC.pastSend .dSend .dDone rfl rfl Go_pastSend acts _ k i h with
      ⟨j2, h2, e2⟩ | ⟨g, hg, _⟩
    · obtain ⟨j1, h1, e1⟩ := hsend j2 i e2
      exact ⟨j1, j2, h1, h2, e1, e2⟩
    · simp at hg

theorem C7_witness :
    New 1 = .ok machine1 ∧ run ⟨machine1, []⟩ twoTasks = some allDone ∧
      (events ⟨machine1, []⟩ twoTasks)[14]? = some (0, .dDone) ∧
      ∃ j1 j2, j1 < j2 ∧ j2 < 14 ∧ (events ⟨machine1, []⟩ twoTasks)[j1]? = some (0, .dDec) ∧
        (events ⟨machine1, []⟩ twoTasks)[j2]? = some (0, .dSend) :=
  ⟨rfl, rfl, rfl,
   (C7_decrement_before_ticket_return 1 machine1 twoTasks allDone rfl rfl).2.2.2 14 0 rfl⟩

/-- Claim C8. Along every execution from `New(limit)`: what `MaxInUse()` returns is the
maximum of `inUse` over all the states gone through since construction (no state has a
larger `inUse`, and some state has exactly that `inUse`); it is `0` if `inUse` was `0`
throughout; `maxInUse` in an earlier state is at most `maxInUse` now; and once `inUse` has
been equal to the limit in some state, `MaxInUse()` returns what `Limit()` returns. -/
theorem C8_maxInUse_is_peak (limit : Int) (t0 : TicketsMachine) (acts : List Action) (s : Sys)
    (hNew : New limit = .ok t0) (hrun : run ⟨t0, []⟩ acts = some s) :
    (∀ v, s.t.MaxInUse = some v →
      (∀ x ∈ states ⟨t0, []⟩ acts, x.t.inUse ≤ v) ∧ (∃ x ∈ states ⟨t0, []⟩ acts, x.t.inUse = v)) ∧
    ((∀ x ∈ states ⟨t0, []⟩ acts, x.t.inUse = 0) → s.t.maxInUse = 0) ∧
    (∀ x ∈ states ⟨t0, []⟩ acts, x.t.maxInUse ≤ s.t.maxInUse) ∧
    (∀ v, s.t.MaxInUse = some v → (∃ x ∈ states ⟨t0, []⟩ acts, x.t.inUse = x.t.limit) →
      s.t.Limit = some v) := by
  have hI0 := New_inv limit t0 hNew
  have hI := run_inv acts _ s hrun hI0
  obtain ⟨p1, p2, p3⟩ := run_peak acts _ s hrun hI0
  have hmax : s.t.m = false → max s.t.maxInUse s.t.inUse = s.t.maxInUse := by
    intro hm
    have h1 := (lockfree_noCS s hI).mp hm
    have h2 : cnt PC.maxPending s.gs ≤ cnt PC.inCS s.gs :=
      cnt_mono _ _ (by intro pc; cases pc <;> simp [PC.maxPending, PC.inCS]) s.gs
    have h3 := hI.maxLo
    exact max_eq_left (by omega)
  obtain ⟨_, _, _, hu0, hm0, _⟩ := New_ok limit t0 hNew
  have hfirst : (⟨t0, []⟩ : Sys) ∈ states ⟨t0, []⟩ acts := (states_last acts _ s hrun).1
  have p4 : ∃ x ∈ states ⟨t0, []⟩ acts, x.t.inUse = max s.t.maxInUse s.t.inUse := by
    rcases p3 with p3 | p3
    · refine ⟨_, hfirst, ?_⟩
      rw [p3]
      simp only [hu0, hm0, max_self]
    · exact p3
  have key : ∀ v, s.t.MaxInUse = some v → s.t.m = false ∧ v = s.t.maxInUse := by
    intro v hv
    unfold TicketsMachine.MaxInUse at hv
    split_ifs at hv with hm
    simp only [Option.some.injEq] at hv
    exact ⟨by simpa using hm, hv.symm⟩
  refine ⟨?_, ?_, fun x hx => (states_mono acts _ s hrun x hx).1, ?_⟩
  · intro v hv
    obtain ⟨hm, rfl⟩ := key v hv
    rw [hmax hm] at p2 p4
    exact ⟨p2, p4⟩
  · intro hz
    obtain ⟨x, hx, hxe⟩ := p4
    rw [hz x hx] at hxe
    have h1 := hI.maxNonneg
    have h2 : s.t.maxInUse ≤ max s.t.maxInUse s.t.inUse := le_max_left _ _
    omega
  · intro v hv ⟨x, hx, hxl⟩
    obtain ⟨hm, rfl⟩ := key v hv
    rw [hmax hm] at p2
    have h1 := p2 x hx
    have h2 := hI.maxHi
    have h3 : x.t.limit = s.t.limit := by
      rw [states_limit acts _ x hx, run_limit acts _ s hrun]
    simp only [TicketsMachine.Limit, hm, Bool.false_eq_true, if_false, Option.some.injEq]
    omega

theorem C8_witness :
    New 1 = .ok machine1 ∧ run ⟨machine1, []⟩ twoTasks = some allDone ∧
      allDone.t.MaxInUse = some 1 ∧
      (∀ x ∈ states ⟨machine1, []⟩ twoTasks, x.t.inUse ≤ 1) ∧
      (∃ x ∈ states ⟨machine1, []⟩ twoTasks, x.t.inUse = 1) :=
  ⟨rfl, rfl, rfl, (C8_maxInUse_is_peak 1 machine1 twoTasks allDone rfl rfl).1 1 rfl⟩

/-- Claim C9. Along every execution from `New(limit)`: `dispensed` is the number of calls
of `Go` that have executed `t.dispensed++`, and what `Dispensed()` returns is the number of
calls of `Go` that have completed their admission bookkeeping (lines 55-61), whether or
not their tasks have finished; `dispensed` in an earlier state is at most `dispensed` now;
and when `k` calls of `Go` were made and all have returned, `dispensed` is `k`, which is
what `Dispensed()` returns. -/
theorem C9_dispensed_counts_admissions (limit : Int) (t0 : TicketsMachine) (acts : List Action)
    (s : Sys) (hNew : New limit = .ok t0) (hrun : run ⟨t0, []⟩ acts = some s) :
    s.t.dispensed = cnt PC.dispensedDone s.gs ∧
    (∀ v, s.t.Dispensed = some v → v = cnt PC.admitted s.gs) ∧
    (∀ x ∈ states ⟨t0, []⟩ acts, x.t.dispensed ≤ s.t.dispensed) ∧
    (∀ k : Nat, acts.count .go = k → (∀ g ∈ s.gs, g.pc.returned = true) →
      s.t.dispensed = k ∧ (∀ v, s.t.Dispensed = some v → v = k) ∧
      (s.t.m = false → s.t.Dispensed = some (k : Int))) := by
  have hI := run_inv acts _ s hrun (New_inv limit t0 hNew)
  have hsplit : cnt PC.dispensedDone s.gs = cnt PC.admitted s.gs
      + cnt (fun pc => pc == .updMax || pc == .unlock) s.gs + cnt (fun _ => false) s.gs :=
    cnt_split _ _ _ _ (by intro pc; cases pc <;> rfl) s.gs
  have hcs : cnt (fun pc => pc == .updMax || pc == .unlock) s.gs ≤ cnt PC.inCS s.gs :=
    cnt_mono _ _ (by intro pc; cases pc <;> simp [PC.inCS]) s.gs
  have hz : cnt (fun _ => false) s.gs = 0 := cnt_zero _ _ (fun _ _ => rfl)
  have hd := hI.disp
  refine ⟨hd, ?_, fun x hx => (states_mono acts _ s hrun x hx).2, ?_⟩
  · intro v hv
    unfold TicketsMachine.Dispensed at hv
    split_ifs at hv with hm
    simp only [Option.some.injEq] at hv
    have h1 := (lockfree_noCS s hI).mp (by simpa using hm)
    omega
  · intro k hk hret
    have hlen := run_length acts _ s hrun
    simp only [List.length_nil, Nat.zero_add] at hlen
    have h3 := cnt_all PC.dispensedDone s.gs (by
      intro g hg
      have := hret g hg
      revert this
      cases g.pc <;> simp [PC.returned, PC.dispensedDone])
    have hk2 : s.t.dispensed = k := by omega
    refine ⟨hk2, ?_, ?_⟩
    · intro v hv
      unfold TicketsMachine.Dispensed at hv
      split_ifs at hv
      simp only [Option.some.injEq] at hv
      omega
    · intro hm
      simp only [TicketsMachine.Dispensed, hm, Bool.false_eq_true, if_false, Option.some.injEq]
      exact hk2

theorem C9_witness :
    New 1 = .ok machine1 ∧ run ⟨machine1, []⟩ untilBody = some bodyRunning ∧
      untilBody.count .go = 1 ∧ bodyRunning.t.Dispensed = some 1 :=
  ⟨rfl, rfl, rfl,
   ((C9_dispensed_counts_admissions 1 machine1 untilBody bodyRunning rfl rfl).2.2.2 1 rfl
     (by decide)).2.2 rfl⟩

/-- Claim C10. In every reachable state the tickets in the dispenser together with the
tickets held by the threads are exactly `0 .. limit-1`, each once; the dispenser, whose
capacity is `limit`, never holds more than `limit` tickets; a thread at the deferred send
(line 75) finds room in the channel, so its statement executes; and the fill loop of `New`
never blocks, whatever the argument. -/
theorem C10_tickets_conserved (limit : Int) (s : Sys) (h : Reachable limit s) :
    (s.t.dispenser.buf ++ heldTickets s.gs).Perm (tickets s.t.limit) ∧
    s.t.dispenser.cap = s.t.limit.toNat ∧
    s.t.dispenser.buf.length ≤ s.t.dispenser.cap ∧
    (∀ (i : Nat) (g : G), s.gs[i]? = some g → g.pc = .dSend →
      s.t.dispenser.buf.length < s.t.dispenser.cap ∧ (exec s (.step i)).isSome = true) ∧
    (∀ c : Int, New c ≠ .blocked) := by
  have hI := reachable_inv limit s h
  have h1 := hI.cap
  have h2 := hI.len
  refine ⟨?_, by omega, by omega, ?_, ?_⟩
  · rw [List.perm_iff_count]
    intro v
    rw [List.count_append, count_heldTickets, count_tickets]
    exact hI.tix v
  · intro i g hg hpc
    have h3 := cnt_pos PC.holds s.gs i g hg (by simp [hpc, PC.holds])
    have hlt : s.t.dispenser.buf.length < s.t.dispenser.cap := by omega
    refine ⟨hlt, ?_⟩
    simp [exec, hg, TicketsMachine.Go, hpc, Chan.send, hlt]
  · exact New_not_blocked

theorem C10_witness :
    Reachable 1 bodyRunning ∧
      (bodyRunning.t.dispenser.buf ++ heldTickets bodyRunning.gs).Perm (tickets 1) :=
  ⟨⟨machine1, untilBody, rfl, rfl⟩,
   (C10_tickets_conserved 1 bodyRunning ⟨machine1, untilBody, rfl, rfl⟩).1⟩

end Utmost
